import Mathlib

/-! yavs-go: the cache-refresh and lookup path of `main.go`

A shallow embedding of `refreshCache`, `handle` and the timer decision of `main`,
together with the part of Go's `fmt.Fscanf` that `refreshCache` runs for the format
`"%s %s %s"`.

Conventions of the embedding.

* A Go `string` is a list of runes (`GoString`); the response body is the list of
  runes that `readRune.ReadRune` of package `fmt` decodes from it, followed either by
  `io.EOF` or by a read error that every later read repeats (the bodies of
  `net/http` keep their first error). The per-call rune limit of `fmt`
  (`hugeWid`, `1 <<< 30`) is far above any feed considered and is not modelled.
* `resp.Body` is no `io.RuneScanner`, so every call of `Fscanf` wraps it in a fresh
  `readRune`; a rune that was read and pushed back with `UnreadRune` when the call
  returns is held by that wrapper and lost to the next call.
* `vmap` is a finite map seen through its lookup function; the mutex is not
  modelled (`refreshCache` and `handle` are taken as atomic steps).
* Log output of `refreshCache` is not part of the state.
-/

namespace Yavs

/-- A Go string, as its sequence of runes. -/
abbrev GoString := List Char

/-- The record type `vanity` of `main.go`. -/
structure vanity where
  Pkg : GoString
  VCS : GoString
  URL : GoString
deriving DecidableEq, Repr

/-- The package-level map `vmap`, seen through `vmap[k]` (`none` when `k` is no key). -/
abbrev VMap := GoString → Option vanity

/-- The map `make(map[string]*vanity)` that `vmap` starts as. -/
def emptyMap : VMap := fun _ => none

/-- The assignment `vmap[k] = v`. -/
def VMap.set (m : VMap) (k : GoString) (v : vanity) : VMap :=
  fun q => if q = k then some v else m q

/-! ## `fmt`: white space and the scanning primitives -/

/-- The function `isSpace` of `fmt/scan.go`: the table `space` of rune ranges. -/
def isSpace (r : Char) : Bool :=
  let n := r.toNat
  (0x0009 ≤ n && n ≤ 0x000d) || n == 0x0020 || n == 0x0085 || n == 0x00a0 ||
  n == 0x1680 || (0x2000 ≤ n && n ≤ 0x200a) || (0x2028 ≤ n && n ≤ 0x2029) ||
  n == 0x202f || n == 0x205f || n == 0x3000

/-- The errors a call of `Fscanf` can return here. `EOF` is `io.EOF`; `readFailure` is
any error of the underlying reader other than `io.EOF`; the others are the
`scanError`s raised by `SkipSpace` and `advance`. -/
inductive scanError where
  | EOF
  | readFailure
  | unexpectedNewline
  | newlineMismatch
  | expectedSpace
deriving DecidableEq, Repr

/-- Outcome of a scanning step on the runes still to be read.
`ok v rest held`: the step returned `v`; `rest` is what the scan state reads next,
and `held` tells that the first rune of `rest` was pushed back by `UnreadRune`
(it sits in the `readRune` wrapper, no longer in the body).
`fail e rest`: the step panicked with `e`; `rest` is what is left in the body. -/
inductive Scan (α : Type) where
  | ok (val : α) (rest : List Char) (held : Bool)
  | fail (err : scanError) (rest : List Char)
deriving Repr

/-- Sequencing of scanning steps: a panic ends the call. -/
def Scan.bind {α β : Type} (r : Scan α) (f : α → List Char → Scan β) : Scan β :=
  match r with
  | .ok v rest _ => f v rest
  | .fail e rest => .fail e rest

/-- What `getRune` does when the body has no rune left: it returns `eof` when the
body ends with `io.EOF`, and panics with the read error otherwise. -/
def atEnd {α : Type} (broken : Bool) (onEOF : Scan α) : Scan α :=
  if broken then .fail .readFailure [] else onEOF

/-- The method `ss.SkipSpace` with `nlIsSpace = false`, as `Fscanf` sets it.
(The branch for a carriage return followed by a newline continues the loop, as the
last branch does for a carriage return, which is a space.) -/
def SkipSpace (broken : Bool) : List Char → Scan Unit
  | [] => atEnd broken (.ok () [] false)
  | r :: rest =>
    if r = '\n' then .fail .unexpectedNewline rest
    else if !isSpace r then .ok () (r :: rest) true
    else SkipSpace broken rest

/-- The method `ss.notEOF`: panics with `io.EOF` when no rune is left. -/
def notEOF (broken : Bool) : List Char → Scan Unit
  | [] => atEnd broken (.fail .EOF [])
  | r :: rest => .ok () (r :: rest) true

/-- The loop of `ss.token` with the predicate `notSpace`: the runes up to the next
space, which is pushed back, or up to the end of the input. -/
def tokenLoop (broken : Bool) : List Char → Scan GoString
  | [] => atEnd broken (.ok [] [] false)
  | r :: rest =>
    if isSpace r then .ok [] (r :: rest) true
    else
      match tokenLoop broken rest with
      | .ok tok rest1 held => .ok (r :: tok) rest1 held
      | .fail e rest1 => .fail e rest1

/-- The call `ss.token(true, notSpace)`. -/
def token (broken : Bool) (inp : List Char) : Scan GoString :=
  (SkipSpace broken inp).bind fun _ inp1 => tokenLoop broken inp1

/-- The method `ss.convertString` for the verb `%s`. -/
def convertString (broken : Bool) (inp : List Char) : Scan GoString :=
  (SkipSpace broken inp).bind fun _ inp1 =>
  (notEOF broken inp1).bind fun _ inp2 =>
  token broken inp2

/-- The loop `for isSpace(inputc) && inputc != '\n'` of `ss.advance`, followed by
its `UnreadRune` of the rune that ended the loop. -/
def advanceRun (broken : Bool) : List Char → Scan Unit
  | [] => atEnd broken (.ok () [] false)
  | r :: rest =>
    if isSpace r && r != '\n' then advanceRun broken rest
    else .ok () (r :: rest) true

/-- The method `ss.advance` on the single space that separates two verbs of the
format (`newlines = 0`, `trailingSpace = true`): the input must continue with a
space that is no newline, or end. -/
def advance (broken : Bool) : List Char → Scan Unit
  | [] => atEnd broken (.ok () [] false)
  | r :: rest =>
    if !isSpace r then .fail .expectedSpace rest
    else if r = '\n' then .fail .newlineMismatch rest
    else advanceRun broken rest

/-- The method `ss.doScanf` for the format `"%s %s %s"` and three `*string` operands:
for each verb `SkipSpace` and `scanOne` (which is `convertString`), and `advance`
over the space between two verbs. -/
def doScanf (broken : Bool) (inp : List Char) : Scan vanity :=
  (SkipSpace broken inp).bind fun _ i1 =>
  (convertString broken i1).bind fun pkg i2 =>
  (advance broken i2).bind fun _ i3 =>
  (SkipSpace broken i3).bind fun _ i4 =>
  (convertString broken i4).bind fun vcs i5 =>
  (advance broken i5).bind fun _ i6 =>
  (SkipSpace broken i6).bind fun _ i7 =>
  match convertString broken i7 with
  | .ok url rest held => .ok ⟨pkg, vcs, url⟩ rest held
  | .fail e rest => .fail e rest

/-- The call `fmt.Fscanf(resp.Body, "%s %s %s", &v.Pkg, &v.VCS, &v.URL)`: its error
or the record it filled, and the runes left in the body. A pushed-back rune is
dropped with the scan state when the call returns. -/
def Fscanf (broken : Bool) (body : List Char) : Except scanError vanity × List Char :=
  match doScanf broken body with
  | .ok v rest held => (.ok v, if held then rest.tail else rest)
  | .fail e rest => (.error e, rest)

/-! ## `main.go` -/

/-- The body of an HTTP response: its runes, and whether reading past them fails
with an error other than `io.EOF` (`broken`) or ends with `io.EOF`. -/
structure Body where
  data : List Char
  broken : Bool
deriving DecidableEq, Repr

/-- The `*http.Response` that `http.Get` returns, as far as `refreshCache` can see it. -/
structure Response where
  StatusCode : Nat
  Body : Body
deriving DecidableEq, Repr

/-- A Go `error` value returned by `http.Get`. -/
structure error where
  msg : String
deriving DecidableEq, Repr

/-- The `for` loop of `refreshCache` (lines 113-125), run for at most `fuel` iterations:
`none` when the loop has not reached its `break` by then. -/
def scanLoop (broken : Bool) : Nat → List Char → List vanity → Option (List vanity)
  | 0, _, _ => none
  | fuel + 1, body, vanityList =>
    match Fscanf broken body with
    | (.error .EOF, _) => some vanityList
    | (.error _, body1) => scanLoop broken fuel body1 vanityList
    | (.ok newVanity, body1) => scanLoop broken fuel body1 (vanityList ++ [newVanity])

/-- The loop `for _, v := range vanityList { vmap[v.Pkg] = v }` of `refreshCache`. -/
def mergeList (vmap : VMap) (vanityList : List vanity) : VMap :=
  vanityList.foldl (fun m v => m.set v.Pkg v) vmap

/-- What a call of `refreshCache` returns, and the map it leaves. -/
structure RefreshResult where
  n : Nat
  err : Option error
  vmap : VMap

/-- The function `refreshCache`. `get` is the outcome of `http.Get(url)`; the result is
`none` when the scan loop does not end within `fuel` iterations. -/
def refreshCache (fuel : Nat) (get : Except error Response) (vmap : VMap) :
    Option RefreshResult :=
  match get with
  | .error err => some ⟨0, some err, vmap⟩
  | .ok resp =>
    match scanLoop resp.Body.broken fuel resp.Body.data [] with
    | none => none
    | some vanityList => some ⟨vanityList.length, none, mergeList vmap vanityList⟩

/-- The function `strings.TrimPrefix`. -/
def TrimPrefix (s pre : GoString) : GoString :=
  if pre.isPrefixOf s then s.drop pre.length else s

/-- What `handle` writes: `http.NotFound`, or the template executed on a record. -/
inductive Reply where
  | notFound
  | page (info : vanity)
deriving DecidableEq, Repr

/-- The status code of a reply. -/
def Reply.status : Reply → Nat
  | .notFound => 404
  | .page _ => 200

/-- The function `handle` on the request path `r.URL.Path`: its reply and the map
it leaves. -/
def handle (vmap : VMap) (path : GoString) : Reply × VMap :=
  match vmap (TrimPrefix path ['/']) with
  | none => (.notFound, vmap)
  | some info => (.page info, vmap)

/-- What `main` does between parsing its flags and the first refresh. -/
inductive Effect where
  | logPrintf (msg : String)
  | goRefreshCacheLoop (url : GoString)
deriving DecidableEq, Repr

/-- Lines 45-53 of `main`: the decision on the timer loop and on the refresh path. -/
def main (refreshDur : Int) (refreshPath : GoString) (dataURL : GoString) : List Effect :=
  (if refreshDur = 0 then
    [.logPrintf "warning: refesh durations set to zero. so cache won't refresh automatically"]
   else [.goRefreshCacheLoop dataURL]) ++
  (if refreshPath = [] then
    [.logPrintf "warning: refesh path not set. you won't be able to refresh the cache manually"]
   else [])

/-! ## The layout of a feed -/

/-- A token of the feed: not empty and without white space. -/
def isToken (t : GoString) : Prop := t ≠ [] ∧ ∀ c ∈ t, isSpace c = false

/-- A run of spaces inside a line: not empty, white space only, no newline. -/
def isGap (g : List Char) : Prop := g ≠ [] ∧ ∀ c ∈ g, isSpace c = true ∧ c ≠ '\n'

/-- A possibly empty run of spaces without a newline. -/
def isBlank (g : List Char) : Prop := ∀ c ∈ g, isSpace c = true ∧ c ≠ '\n'

/-- A possibly empty run of white space, newlines included. -/
def isWhite (w : List Char) : Prop := ∀ c ∈ w, isSpace c = true

/-- A triple of the feed as it is laid out in the stream: its three tokens, the white
space between them, and the white space `sep` that follows the third token. -/
structure Triple where
  name : GoString
  gap1 : List Char
  vcs : GoString
  gap2 : List Char
  url : GoString
  sep : List Char
deriving DecidableEq, Repr

/-- The runes of a triple in the stream. -/
def Triple.render (t : Triple) : List Char :=
  t.name ++ (t.gap1 ++ (t.vcs ++ (t.gap2 ++ (t.url ++ t.sep))))

/-- The record a triple stands for. -/
def Triple.record (t : Triple) : vanity := ⟨t.name, t.vcs, t.url⟩

/-- The three tokens are tokens, the runs between them hold no newline, and what
follows the triple is white space. -/
def Triple.wf (t : Triple) : Prop :=
  isToken t.name ∧ isGap t.gap1 ∧ isToken t.vcs ∧ isGap t.gap2 ∧ isToken t.url ∧
  isWhite t.sep

/-- The stream of a list of triples. -/
def renderFeed : List Triple → List Char
  | [] => []
  | t :: ts => t.render ++ renderFeed ts

/-- A well-formed feed: well-formed triples, each followed by at least one rune of
white space, which the last triple may lack. -/
def FeedWF : List Triple → Prop
  | [] => True
  | t :: ts => t.wf ∧ (t.sep ≠ [] ∨ ts = []) ∧ FeedWF ts

/-- A malformed entry: a line with one token, or with two, then spaces without a
newline, and the newline that ends the line unless the stream ends there. -/
structure Short where
  first : GoString
  second : Option (List Char × GoString)
  trail : List Char
  newline : Bool
deriving DecidableEq, Repr

/-- The runes of the second token of a malformed entry, with the spaces before it. -/
def secondRunes : Option (List Char × GoString) → List Char
  | none => []
  | some (gap, tok) => gap ++ tok

/-- The second token of a malformed entry, when there is one, is a token that follows
spaces without a newline. -/
def secondOK : Option (List Char × GoString) → Prop
  | none => True
  | some (gap, tok) => isGap gap ∧ isToken tok

/-- The runes of a malformed entry in the stream. -/
def Short.render (m : Short) : List Char :=
  m.first ++ (secondRunes m.second ++ (m.trail ++ if m.newline then ['\n'] else []))

/-- The tokens of a malformed entry are tokens, and the runs hold no newline. -/
def Short.wf (m : Short) : Prop :=
  isToken m.first ∧ secondOK m.second ∧ isBlank m.trail

instance isToken.decidable (t : GoString) : Decidable (isToken t) :=
  inferInstanceAs (Decidable (t ≠ [] ∧ ∀ c ∈ t, isSpace c = false))

instance isGap.decidable (g : List Char) : Decidable (isGap g) :=
  inferInstanceAs (Decidable (g ≠ [] ∧ ∀ c ∈ g, isSpace c = true ∧ c ≠ '\n'))

instance isBlank.decidable (g : List Char) : Decidable (isBlank g) :=
  inferInstanceAs (Decidable (∀ c ∈ g, isSpace c = true ∧ c ≠ '\n'))

instance isWhite.decidable (w : List Char) : Decidable (isWhite w) :=
  inferInstanceAs (Decidable (∀ c ∈ w, isSpace c = true))

instance Triple.wf.decidable (t : Triple) : Decidable t.wf :=
  inferInstanceAs (Decidable (isToken t.name ∧ isGap t.gap1 ∧ isToken t.vcs ∧
    isGap t.gap2 ∧ isToken t.url ∧ isWhite t.sep))

instance FeedWF.decidable : (ts : List Triple) → Decidable (FeedWF ts)
  | [] => isTrue trivial
  | t :: ts =>
    have := FeedWF.decidable ts
    inferInstanceAs (Decidable (t.wf ∧ (t.sep ≠ [] ∨ ts = []) ∧ FeedWF ts))

instance secondOK.decidable : (o : Option (List Char × GoString)) → Decidable (secondOK o)
  | none => isTrue trivial
  | some (gap, tok) => inferInstanceAs (Decidable (isGap gap ∧ isToken tok))

instance Short.wf.decidable (m : Short) : Decidable m.wf :=
  inferInstanceAs (Decidable (isToken m.first ∧ secondOK m.second ∧ isBlank m.trail))

/-- The line `x y z` of a feed. -/
def lineXYZ : Triple := ⟨"x".toList, [' '], "y".toList, [' '], "z".toList, ['\n']⟩

/-- The line `c d e` of a feed. -/
def lineCDE : Triple := ⟨"c".toList, [' '], "d".toList, [' '], "e".toList, ['\n']⟩

/-- The malformed line `a b` of a feed. -/
def lineAB : Short := ⟨"a".toList, some ([' '], "b".toList), [], true⟩

/-- The record of the first line of the feed in the specification. -/
def fooRecord : vanity := ⟨"foo".toList, "git".toList, "https://example.com/foo".toList⟩

/-- A map that holds `fooRecord` and nothing else. -/
def fooMap : VMap := emptyMap.set "foo".toList fooRecord

/-- A response with status 500 whose body is the first line of that feed. -/
def fooResponse500 : Response :=
  ⟨500, ⟨"foo git https://example.com/foo\n".toList, false⟩⟩

/-- A feed of one triple whose three tokens stand on three lines. -/
def threeLineFeed : List Char := "foo\ngit\nhttps://example.com/foo\n".toList

/-- A feed of the triple `x y z` laid out on two lines, the malformed line `a b`, and the
line `c d e`. -/
def splitTripleFeed : List Char := "x\ny z\na b\nc d e\n".toList

/-- The step did not panic with `io.EOF`. -/
def Scan.noEOF {α : Type} : Scan α → Prop
  | .ok _ _ _ => True
  | .fail e _ => e ≠ scanError.EOF

/-- The step left at most `n` runes to read. -/
def Scan.leaves {α : Type} (n : Nat) : Scan α → Prop
  | .ok _ rest _ => rest.length ≤ n
  | .fail _ rest => rest.length ≤ n

/-- The scan loop on the stream `body`, entered with the list `acc`, ends with the
result `res` whenever it is given more iterations than `body` has runes. -/
def Parses (body : List Char) (acc : List vanity) (res : List vanity) : Prop :=
  ∀ fuel, body.length < fuel → scanLoop false fuel body acc = some res

/-! ## The map and the merge loop -/

theorem VMap.set_same (m : VMap) (k : GoString) (v : vanity) : m.set k v k = some v := by
  simp [VMap.set]

theorem VMap.set_other (m : VMap) (k q : GoString) (v : vanity) (h : q ≠ k) :
    m.set k v q = m q := by
  simp [VMap.set, h]

/-- Records whose name is not `k` leave the entry of `k` alone. -/
theorem mergeList_absent (L : List vanity) (M : VMap) (k : GoString)
    (h : ∀ v ∈ L, v.Pkg ≠ k) : mergeList M L k = M k := by
  induction L generalizing M with
  | nil => rfl
  | cons w L ih =>
    have hw : k ≠ w.Pkg := fun e => h w (List.mem_cons_self _ _) e.symm
    have hL : ∀ v ∈ L, v.Pkg ≠ k := fun v hv => h v (List.mem_cons_of_mem _ hv)
    show mergeList (M.set w.Pkg w) L k = M k
    rw [ih (M.set w.Pkg w) hL, VMap.set_other M w.Pkg k w hw]

theorem mergeList_append (M : VMap) (L1 L2 : List vanity) :
    mergeList M (L1 ++ L2) = mergeList (mergeList M L1) L2 := by
  simp [mergeList, List.foldl_append]

/-- The last record named `k` is the one the merged map holds for `k`. -/
theorem mergeList_last (M : VMap) (pre post : List vanity) (v : vanity)
    (h : ∀ w ∈ post, w.Pkg ≠ v.Pkg) : mergeList M (pre ++ v :: post) v.Pkg = some v := by
  rw [mergeList_append]
  show mergeList ((mergeList M pre).set v.Pkg v) post v.Pkg = some v
  rw [mergeList_absent post _ v.Pkg h, VMap.set_same]

/-- The merge loop keeps every key. -/
theorem mergeList_keeps (L : List vanity) (M : VMap) (k : GoString)
    (h : (M k).isSome) : (mergeList M L k).isSome := by
  induction L generalizing M with
  | nil => exact h
  | cons w L ih =>
    apply ih
    by_cases e : k = w.Pkg
    · simp [VMap.set, e]
    · simpa [VMap.set, e] using h

/-- The keys of the merged map are the old keys and the names of the batch. -/
theorem mergeList_keys (L : List vanity) (M : VMap) (k : GoString) :
    (mergeList M L k).isSome ↔ (M k).isSome ∨ ∃ v ∈ L, v.Pkg = k := by
  induction L generalizing M with
  | nil => simp [mergeList]
  | cons w L ih =>
    show (mergeList (M.set w.Pkg w) L k).isSome ↔ _
    rw [ih]
    by_cases e : k = w.Pkg
    · subst e
      simp [VMap.set]
    · have e2 : ¬ w.Pkg = k := fun h => e h.symm
      simp [VMap.set, e, e2]

theorem TrimPrefix_slash (k : GoString) : TrimPrefix ('/' :: k) ['/'] = k := by
  simp [TrimPrefix, List.isPrefixOf]

/-! ## The scanning primitives on tokens and runs of spaces -/

theorem isSpace_newline : isSpace '\n' = true := by decide

theorem ne_newline_of_not_space {c : Char} (h : isSpace c = false) : c ≠ '\n' := by
  rintro rfl
  rw [isSpace_newline] at h
  exact Bool.noConfusion h

theorem SkipSpace_nonspace (b : Bool) (c : Char) (x : List Char) (h : isSpace c = false) :
    SkipSpace b (c :: x) = .ok () (c :: x) true := by
  simp [SkipSpace, ne_newline_of_not_space h, h]

theorem SkipSpace_blank (b : Bool) (c : Char) (x : List Char) (h : isSpace c = true)
    (hn : c ≠ '\n') : SkipSpace b (c :: x) = SkipSpace b x := by
  simp [SkipSpace, hn, h]

theorem SkipSpace_newline (b : Bool) (x : List Char) :
    SkipSpace b ('\n' :: x) = .fail .unexpectedNewline x := by
  simp [SkipSpace]

theorem tokenLoop_token (t y : List Char) (ht : ∀ c ∈ t, isSpace c = false)
    (hy : ∀ c ∈ y.head?, isSpace c = true) :
    tokenLoop false (t ++ y) = .ok t y (!y.isEmpty) := by
  induction t with
  | nil =>
    cases y with
    | nil => simp [tokenLoop, atEnd]
    | cons c x =>
      have hc : isSpace c = true := hy c (by simp)
      simp [tokenLoop, hc]
  | cons c t ih =>
    have hc := ht c (List.mem_cons_self _ _)
    have h := ih (fun d hd => ht d (List.mem_cons_of_mem _ hd))
    simp [tokenLoop, hc, h]

theorem convertString_token (t y : List Char) (ht : isToken t)
    (hy : ∀ c ∈ y.head?, isSpace c = true) :
    convertString false (t ++ y) = .ok t y (!y.isEmpty) := by
  obtain ⟨hne, hns⟩ := ht
  cases t with
  | nil => exact absurd rfl hne
  | cons c t =>
    have hc := hns c (List.mem_cons_self _ _)
    have h := tokenLoop_token (c :: t) y hns hy
    simp only [List.cons_append] at h ⊢
    simp [convertString, token, Scan.bind, SkipSpace_nonspace, notEOF, hc, h]

theorem advanceRun_blank (g y : List Char) (hg : isBlank g)
    (hy : ∀ c ∈ y.head?, isSpace c = false ∨ c = '\n') :
    advanceRun false (g ++ y) = .ok () y (!y.isEmpty) := by
  induction g with
  | nil =>
    cases y with
    | nil => simp [advanceRun, atEnd]
    | cons c x =>
      rcases hy c (by simp) with hc | hc
      · simp [advanceRun, hc]
      · simp [advanceRun, hc]
  | cons c g ih =>
    have hc := hg c (List.mem_cons_self _ _)
    have h := ih (fun d hd => hg d (List.mem_cons_of_mem _ hd))
    simp [advanceRun, hc.1, hc.2, h]

theorem advance_gap (g y : List Char) (hg : isGap g)
    (hy : ∀ c ∈ y.head?, isSpace c = false ∨ c = '\n') :
    advance false (g ++ y) = .ok () y (!y.isEmpty) := by
  obtain ⟨hne, hb⟩ := hg
  cases g with
  | nil => exact absurd rfl hne
  | cons c g =>
    have hc := hb c (List.mem_cons_self _ _)
    have h := advanceRun_blank g y (fun d hd => hb d (List.mem_cons_of_mem _ hd)) hy
    simp [advance, hc.1, hc.2, h]

/-- A token starts with a rune that is no space. -/
theorem isToken.head_nonspace {t : List Char} (ht : isToken t) (y : List Char) :
    ∀ c ∈ (t ++ y).head?, isSpace c = false ∨ c = '\n' := by
  obtain ⟨hne, hns⟩ := ht
  cases t with
  | nil => exact absurd rfl hne
  | cons d t =>
    intro c hc
    simp at hc
    subst hc
    exact Or.inl (hns _ (List.mem_cons_self _ _))

/-- A run of spaces that is not empty starts with a space. -/
theorem isGap.head_space {g : List Char} (hg : isGap g) (y : List Char) :
    ∀ c ∈ (g ++ y).head?, isSpace c = true := by
  obtain ⟨hne, hb⟩ := hg
  cases g with
  | nil => exact absurd rfl hne
  | cons d g =>
    intro c hc
    simp at hc
    subst hc
    exact (hb _ (List.mem_cons_self _ _)).1

theorem SkipSpace_token (b : Bool) (t y : List Char) (ht : isToken t) :
    SkipSpace b (t ++ y) = .ok () (t ++ y) true := by
  obtain ⟨hne, hns⟩ := ht
  cases t with
  | nil => exact absurd rfl hne
  | cons c t => exact SkipSpace_nonspace b c _ (hns c (List.mem_cons_self _ _))

/-- The call of `doScanf` on a well-formed triple that is followed by white space or by
the end of the stream: the three tokens are read, and the rune after the third, if
there is one, is held. -/
theorem doScanf_triple (name gap1 vcs gap2 url y : List Char)
    (h1 : isToken name) (g1 : isGap gap1) (h2 : isToken vcs) (g2 : isGap gap2)
    (h3 : isToken url) (hy : ∀ c ∈ y.head?, isSpace c = true) :
    doScanf false (name ++ (gap1 ++ (vcs ++ (gap2 ++ (url ++ y)))))
      = .ok ⟨name, vcs, url⟩ y (!y.isEmpty) := by
  unfold doScanf
  rw [SkipSpace_token false name _ h1]
  simp only [Scan.bind]
  rw [convertString_token name _ h1 (g1.head_space _)]
  simp only [Scan.bind]
  rw [advance_gap gap1 _ g1 (h2.head_nonspace _)]
  simp only [Scan.bind]
  rw [SkipSpace_token false vcs _ h2]
  simp only [Scan.bind]
  rw [convertString_token vcs _ h2 (g2.head_space _)]
  simp only [Scan.bind]
  rw [advance_gap gap2 _ g2 (h3.head_nonspace _)]
  simp only [Scan.bind]
  rw [SkipSpace_token false url _ h3]
  simp only [Scan.bind]
  rw [convertString_token url _ h3 hy]

theorem Fscanf_triple (name gap1 vcs gap2 url y : List Char)
    (h1 : isToken name) (g1 : isGap gap1) (h2 : isToken vcs) (g2 : isGap gap2)
    (h3 : isToken url) (hy : ∀ c ∈ y.head?, isSpace c = true) :
    Fscanf false (name ++ (gap1 ++ (vcs ++ (gap2 ++ (url ++ y)))))
      = (.ok ⟨name, vcs, url⟩, y.tail) := by
  unfold Fscanf
  rw [doScanf_triple name gap1 vcs gap2 url y h1 g1 h2 g2 h3 hy]
  cases y <;> simp

theorem Fscanf_blank (b : Bool) (c : Char) (x : List Char) (h : isSpace c = true)
    (hn : c ≠ '\n') : Fscanf b (c :: x) = Fscanf b x := by
  simp [Fscanf, doScanf, SkipSpace_blank b c x h hn]

theorem Fscanf_newline (b : Bool) (x : List Char) :
    Fscanf b ('\n' :: x) = (.error .unexpectedNewline, x) := by
  simp [Fscanf, doScanf, SkipSpace_newline, Scan.bind]

theorem Fscanf_nil : Fscanf false [] = (.error .EOF, []) := rfl

/-! ## The scan loop on the parts of a feed -/

theorem Parses.nil (acc : List vanity) : Parses [] acc acc := by
  intro fuel hf
  cases fuel with
  | zero => exact absurd hf (Nat.lt_irrefl 0)
  | succ n => simp [scanLoop, Fscanf_nil]

theorem Parses.white_cons (c : Char) (x : List Char) (acc res : List vanity)
    (hc : isSpace c = true) (h : Parses x acc res) : Parses (c :: x) acc res := by
  intro fuel hf
  cases fuel with
  | zero => exact absurd hf (Nat.not_lt_zero _)
  | succ n =>
    have hlen : x.length < n := by simpa using hf
    by_cases hn : c = '\n'
    · subst hn
      simp only [scanLoop, Fscanf_newline]
      exact h n hlen
    · have e : scanLoop false (n + 1) (c :: x) acc = scanLoop false (n + 1) x acc := by
        simp only [scanLoop, Fscanf_blank false c x hc hn]
      rw [e]
      exact h (n + 1) (Nat.lt_succ_of_lt hlen)

theorem Parses.white (w x : List Char) (acc res : List vanity) (hw : isWhite w)
    (h : Parses x acc res) : Parses (w ++ x) acc res := by
  induction w with
  | nil => exact h
  | cons c w ih =>
    exact Parses.white_cons c (w ++ x) acc res (hw c (List.mem_cons_self _ _))
      (ih (fun d hd => hw d (List.mem_cons_of_mem _ hd)))

theorem isToken.length_pos {t : List Char} (ht : isToken t) : 0 < t.length :=
  List.length_pos.mpr ht.1

theorem Parses.triple (t : Triple) (x : List Char) (acc res : List vanity) (ht : t.wf)
    (hsep : t.sep ≠ [] ∨ x = []) (h : Parses x (acc ++ [t.record]) res) :
    Parses (t.render ++ x) acc res := by
  obtain ⟨h1, g1, h2, g2, h3, hw⟩ := ht
  intro fuel hf
  cases fuel with
  | zero => exact absurd hf (Nat.not_lt_zero _)
  | succ n =>
    have hy : ∀ c ∈ (t.sep ++ x).head?, isSpace c = true := by
      rcases hsep with hs | hx
      · cases hsep2 : t.sep with
        | nil => exact absurd hsep2 hs
        | cons d s =>
          intro c hc
          simp at hc
          subst hc
          exact hw _ (by rw [hsep2]; exact List.mem_cons_self _ _)
      · subst hx
        cases hsep2 : t.sep with
        | nil => intro c hc; simp at hc
        | cons d s =>
          intro c hc
          simp at hc
          subst hc
          exact hw _ (by rw [hsep2]; exact List.mem_cons_self _ _)
    have e : t.render ++ x
        = t.name ++ (t.gap1 ++ (t.vcs ++ (t.gap2 ++ (t.url ++ (t.sep ++ x))))) := by
      simp [Triple.render, List.append_assoc]
    have hlen : (t.sep ++ x).length < n := by
      have h0 := h1.length_pos
      rw [e] at hf
      simp only [List.length_append] at hf ⊢
      omega
    rw [e]
    simp only [scanLoop, Fscanf_triple t.name t.gap1 t.vcs t.gap2 t.url _ h1 g1 h2 g2 h3 hy]
    show scanLoop false n (t.sep ++ x).tail (acc ++ [t.record]) = some res
    cases hsep2 : t.sep with
    | nil =>
      rw [hsep2] at hlen
      cases x with
      | nil => exact h n hlen
      | cons d x => rcases hsep with hs | hx
                    · exact absurd hsep2 hs
                    · exact absurd hx (List.cons_ne_nil _ _)
    | cons d s =>
      rw [hsep2] at hlen
      have hws : isWhite s := fun c hc => hw c (by rw [hsep2]; exact List.mem_cons_of_mem _ hc)
      have hp := Parses.white s x _ res hws h
      apply hp n
      simp only [List.cons_append, List.length_cons] at hlen
      exact Nat.lt_of_succ_lt hlen

/-- The scan loop on a well-formed feed yields the records of its triples, in order. -/
theorem Parses.feed (ts : List Triple) (hwf : FeedWF ts) (acc : List vanity) :
    Parses (renderFeed ts) acc (acc ++ ts.map Triple.record) := by
  induction ts generalizing acc with
  | nil => simpa [renderFeed] using Parses.nil acc
  | cons t ts ih =>
    obtain ⟨ht, hsep, hrest⟩ := hwf
    have hsep2 : t.sep ≠ [] ∨ renderFeed ts = [] := by
      rcases hsep with hs | hs
      · exact Or.inl hs
      · exact Or.inr (by rw [hs]; rfl)
    have h := Parses.triple t (renderFeed ts) acc _ ht hsep2 (ih hrest (acc ++ [t.record]))
    simpa [renderFeed, List.append_assoc] using h

/-- The scan loop on triples that are each followed by white space, and then on `x`. -/
theorem Parses.feed_then (ts : List Triple) (hwf : ∀ t ∈ ts, t.wf ∧ t.sep ≠ [])
    (x : List Char) (acc res : List vanity)
    (h : Parses x (acc ++ ts.map Triple.record) res) :
    Parses (renderFeed ts ++ x) acc res := by
  induction ts generalizing acc with
  | nil => simpa [renderFeed] using h
  | cons t ts ih =>
    have ht := hwf t (List.mem_cons_self _ _)
    have hr := ih (fun u hu => hwf u (List.mem_cons_of_mem _ hu)) (acc ++ [t.record])
      (by simpa [List.append_assoc] using h)
    have h2 := Parses.triple t (renderFeed ts ++ x) acc res ht.1 (Or.inl ht.2) hr
    simpa [renderFeed, List.append_assoc] using h2

/-! ## Malformed entries -/

theorem head_white_append (w y : List Char) (hw : isWhite w)
    (hy : ∀ c ∈ y.head?, isSpace c = true) : ∀ c ∈ (w ++ y).head?, isSpace c = true := by
  cases w with
  | nil => simpa using hy
  | cons d w =>
    intro c hc
    simp at hc
    subst hc
    exact hw _ (List.mem_cons_self _ _)

theorem isBlank.isWhite {g : List Char} (hg : isBlank g) : isWhite g :=
  fun c hc => (hg c hc).1

/-- After a token of a line, spaces and then the newline: `advance`, or the `SkipSpace`
that follows it, panics, and the newline is consumed. -/
theorem advance_line_end {β : Type} (trail x : List Char) (ht : isBlank trail)
    (f : Unit → List Char → Scan β) :
    ∃ e, e ≠ scanError.EOF ∧
      (advance false (trail ++ '\n' :: x)).bind
        (fun _ i => (SkipSpace false i).bind f) = .fail e x := by
  cases trail with
  | nil =>
    refine ⟨.newlineMismatch, by decide, ?_⟩
    simp [advance, isSpace_newline, Scan.bind]
  | cons c tr =>
    refine ⟨.unexpectedNewline, by decide, ?_⟩
    have hg : isGap (c :: tr) := ⟨List.cons_ne_nil _ _, ht⟩
    have h := advance_gap (c :: tr) ('\n' :: x) hg (by intro d hd; simp at hd; exact Or.inr hd.symm)
    rw [h]
    simp [Scan.bind, SkipSpace_newline]

/-- After a token, spaces and then the end of the stream: `advance` and `SkipSpace`
return at the end, and the call goes on with nothing left to read. -/
theorem advance_stream_end {β : Type} (trail : List Char) (ht : isBlank trail)
    (k : List Char → Scan β) :
    (advance false trail).bind (fun _ i => (SkipSpace false i).bind fun _ j => k j)
      = k [] := by
  cases trail with
  | nil => simp [advance, atEnd, Scan.bind, SkipSpace]
  | cons c tr =>
    have hg : isGap (c :: tr) := ⟨List.cons_ne_nil _ _, ht⟩
    have h := advance_gap (c :: tr) [] hg (by intro d hd; simp at hd)
    rw [List.append_nil] at h
    rw [h]
    simp [atEnd, Scan.bind, SkipSpace]

theorem convertString_nil : convertString false [] = .fail .EOF [] := rfl

/-- A line with one or two tokens: `Fscanf` returns an error that is not `io.EOF`, with
the body left at the start of the next line. -/
theorem Fscanf_short_line (first : GoString) (second : Option (List Char × GoString))
    (trail x : List Char) (h1 : isToken first)
    (h2 : secondOK second)
    (ht : isBlank trail) :
    ∃ e, e ≠ scanError.EOF ∧
      Fscanf false (first ++ (secondRunes second ++ (trail ++ '\n' :: x))) = (.error e, x) := by
  have hnl : ∀ c ∈ ('\n' :: x).head?, isSpace c = true := by
    intro c hc
    simp at hc
    subst hc
    exact isSpace_newline
  have hhead := head_white_append trail ('\n' :: x) ht.isWhite hnl
  cases second with
  | none =>
    obtain ⟨e, he, hfail⟩ := advance_line_end trail x ht
      (fun _ i4 => (convertString false i4).bind fun vcs i5 =>
        (advance false i5).bind fun _ i6 =>
        (SkipSpace false i6).bind fun _ i7 =>
        match convertString false i7 with
        | .ok url rest held => Scan.ok (⟨first, vcs, url⟩ : vanity) rest held
        | .fail e rest => .fail e rest)
    refine ⟨e, he, ?_⟩
    simp only [secondRunes, List.nil_append]
    unfold Fscanf doScanf
    rw [SkipSpace_token false first _ h1]
    simp only [Scan.bind]
    rw [convertString_token first _ h1 hhead]
    simp only [Scan.bind] at hfail ⊢
    rw [hfail]
  | some p =>
    obtain ⟨gap, tok⟩ := p
    obtain ⟨hg, htok⟩ := h2
    obtain ⟨e, he, hfail⟩ := advance_line_end trail x ht
      (fun _ i7 =>
        match convertString false i7 with
        | .ok url rest held => Scan.ok (⟨first, tok, url⟩ : vanity) rest held
        | .fail e rest => .fail e rest)
    refine ⟨e, he, ?_⟩
    simp only [secondRunes, List.append_assoc]
    unfold Fscanf doScanf
    rw [SkipSpace_token false first _ h1]
    simp only [Scan.bind]
    rw [convertString_token first _ h1 (hg.head_space _)]
    simp only [Scan.bind]
    rw [advance_gap gap _ hg (htok.head_nonspace _)]
    simp only [Scan.bind]
    rw [SkipSpace_token false tok _ htok]
    simp only [Scan.bind]
    rw [convertString_token tok _ htok hhead]
    simp only [Scan.bind] at hfail ⊢
    rw [hfail]

/-- One or two tokens and then the end of the stream: `Fscanf` returns `io.EOF`. -/
theorem Fscanf_short_end (first : GoString) (second : Option (List Char × GoString))
    (trail : List Char) (h1 : isToken first)
    (h2 : secondOK second)
    (ht : isBlank trail) :
    Fscanf false (first ++ (secondRunes second ++ trail)) = (.error .EOF, []) := by
  have hhead := head_white_append trail [] ht.isWhite (by intro c hc; simp at hc)
  rw [List.append_nil] at hhead
  cases second with
  | none =>
    have hend := advance_stream_end trail ht
      (fun i4 => (convertString false i4).bind fun vcs i5 =>
        (advance false i5).bind fun _ i6 =>
        (SkipSpace false i6).bind fun _ i7 =>
        match convertString false i7 with
        | .ok url rest held => Scan.ok (⟨first, vcs, url⟩ : vanity) rest held
        | .fail e rest => .fail e rest)
    simp only [secondRunes, List.nil_append]
    unfold Fscanf doScanf
    rw [SkipSpace_token false first _ h1]
    simp only [Scan.bind]
    rw [convertString_token first _ h1 hhead]
    simp only [Scan.bind] at hend ⊢
    rw [hend, convertString_nil]
  | some p =>
    obtain ⟨gap, tok⟩ := p
    obtain ⟨hg, htok⟩ := h2
    have hend := advance_stream_end trail ht
      (fun i7 =>
        match convertString false i7 with
        | .ok url rest held => Scan.ok (⟨first, tok, url⟩ : vanity) rest held
        | .fail e rest => .fail e rest)
    simp only [secondRunes, List.append_assoc]
    unfold Fscanf doScanf
    rw [SkipSpace_token false first _ h1]
    simp only [Scan.bind]
    rw [convertString_token first _ h1 (hg.head_space _)]
    simp only [Scan.bind]
    rw [advance_gap gap _ hg (htok.head_nonspace _)]
    simp only [Scan.bind]
    rw [SkipSpace_token false tok _ htok]
    simp only [Scan.bind]
    rw [convertString_token tok _ htok hhead]
    simp only [Scan.bind] at hend ⊢
    rw [hend, convertString_nil]

theorem Short.render_length_pos (m : Short) (hm : m.wf) (x : List Char) :
    x.length < (m.render ++ x).length := by
  have h := hm.1.length_pos
  simp only [Short.render, List.length_append]
  omega

/-- A malformed line is skipped by the scan loop. -/
theorem Parses.short_line (m : Short) (x : List Char) (acc res : List vanity)
    (hm : m.wf) (hnl : m.newline = true) (h : Parses x acc res) :
    Parses (m.render ++ x) acc res := by
  intro fuel hf
  cases fuel with
  | zero => exact absurd hf (Nat.not_lt_zero _)
  | succ n =>
    have hlen : x.length < n := by
      have := Short.render_length_pos m hm x
      omega
    obtain ⟨e, he, hF⟩ := Fscanf_short_line m.first m.second m.trail x hm.1 hm.2.1 hm.2.2
    have e1 : m.render ++ x = m.first ++ (secondRunes m.second ++ (m.trail ++ '\n' :: x)) := by
      simp [Short.render, hnl, List.append_assoc]
    rw [e1]
    unfold scanLoop
    rw [hF]
    cases e with
    | EOF => exact absurd rfl he
    | readFailure => exact h n hlen
    | unexpectedNewline => exact h n hlen
    | newlineMismatch => exact h n hlen
    | expectedSpace => exact h n hlen

/-- A malformed entry at the end of the stream ends the scan loop. -/
theorem Parses.short_end (m : Short) (acc : List vanity)
    (hm : m.wf) (hnl : m.newline = false) : Parses m.render acc acc := by
  intro fuel hf
  cases fuel with
  | zero => exact absurd hf (Nat.not_lt_zero _)
  | succ n =>
    have hF := Fscanf_short_end m.first m.second m.trail hm.1 hm.2.1 hm.2.2
    have e1 : m.render = m.first ++ (secondRunes m.second ++ m.trail) := by
      simp [Short.render, hnl]
    rw [e1]
    unfold scanLoop
    rw [hF]

/-! ## Bodies whose read fails: no call of `Fscanf` returns `io.EOF` -/

theorem Scan.bind_ok {α β : Type} (v : α) (rest : List Char) (held : Bool)
    (f : α → List Char → Scan β) : (Scan.ok v rest held).bind f = f v rest := rfl

theorem Scan.noEOF_bind {α β : Type} (r : Scan α) (f : α → List Char → Scan β)
    (hr : r.noEOF) (hf : ∀ v i, (f v i).noEOF) : (r.bind f).noEOF := by
  cases r with
  | ok v rest held => exact hf v rest
  | fail e rest => exact hr

theorem SkipSpace_noEOF (b : Bool) (inp : List Char) : (SkipSpace b inp).noEOF := by
  induction inp with
  | nil => cases b <;> simp [SkipSpace, atEnd, Scan.noEOF]
  | cons c x ih =>
    unfold SkipSpace
    by_cases h1 : c = '\n'
    · simp [h1, Scan.noEOF]
    · by_cases h2 : isSpace c = true
      · simpa [h1, h2] using ih
      · simp [h1, h2, Scan.noEOF]

theorem tokenLoop_noEOF (b : Bool) (inp : List Char) : (tokenLoop b inp).noEOF := by
  induction inp with
  | nil => cases b <;> simp [tokenLoop, atEnd, Scan.noEOF]
  | cons c x ih =>
    unfold tokenLoop
    by_cases h : isSpace c = true
    · simp [h, Scan.noEOF]
    · simp only [h]
      cases ht : tokenLoop b x with
      | ok tok rest held => simp [Scan.noEOF]
      | fail e rest =>
        rw [ht] at ih
        simpa [Scan.noEOF] using ih

theorem advanceRun_noEOF (b : Bool) (inp : List Char) : (advanceRun b inp).noEOF := by
  induction inp with
  | nil => cases b <;> simp [advanceRun, atEnd, Scan.noEOF]
  | cons c x ih =>
    unfold advanceRun
    by_cases h : (isSpace c && c != '\n') = true
    · simpa [h] using ih
    · simp [h, Scan.noEOF]

theorem advance_noEOF (b : Bool) (inp : List Char) : (advance b inp).noEOF := by
  cases inp with
  | nil => cases b <;> simp [advance, atEnd, Scan.noEOF]
  | cons c x =>
    unfold advance
    by_cases h1 : isSpace c = true
    · by_cases h2 : c = '\n'
      · subst h2
        simp [isSpace_newline, Scan.noEOF]
      · simpa [h1, h2] using advanceRun_noEOF b x
    · simp [h1, Scan.noEOF]

theorem notEOF_broken_noEOF (inp : List Char) : (notEOF true inp).noEOF := by
  cases inp <;> simp [notEOF, atEnd, Scan.noEOF]

theorem convertString_broken_noEOF (inp : List Char) : (convertString true inp).noEOF := by
  unfold convertString token
  apply Scan.noEOF_bind _ _ (SkipSpace_noEOF _ _)
  intro _ i1
  apply Scan.noEOF_bind _ _ (notEOF_broken_noEOF _)
  intro _ i2
  apply Scan.noEOF_bind _ _ (SkipSpace_noEOF _ _)
  intro _ i3
  exact tokenLoop_noEOF _ _

theorem doScanf_broken_noEOF (inp : List Char) : (doScanf true inp).noEOF := by
  unfold doScanf
  apply Scan.noEOF_bind _ _ (SkipSpace_noEOF _ _)
  intro _ i1
  apply Scan.noEOF_bind _ _ (convertString_broken_noEOF _)
  intro pkg i2
  apply Scan.noEOF_bind _ _ (advance_noEOF _ _)
  intro _ i3
  apply Scan.noEOF_bind _ _ (SkipSpace_noEOF _ _)
  intro _ i4
  apply Scan.noEOF_bind _ _ (convertString_broken_noEOF _)
  intro vcs i5
  apply Scan.noEOF_bind _ _ (advance_noEOF _ _)
  intro _ i6
  apply Scan.noEOF_bind _ _ (SkipSpace_noEOF _ _)
  intro _ i7
  have h := convertString_broken_noEOF i7
  cases hc : convertString true i7 with
  | ok url rest held => simp [Scan.noEOF]
  | fail e rest =>
    rw [hc] at h
    simpa [Scan.noEOF] using h

theorem Fscanf_broken_ne_EOF (inp rest : List Char) :
    Fscanf true inp ≠ (.error .EOF, rest) := by
  have h := doScanf_broken_noEOF inp
  unfold Fscanf
  cases hd : doScanf true inp with
  | ok v r held => simp
  | fail e r =>
    rw [hd] at h
    intro heq
    simp only [Prod.mk.injEq, Except.error.injEq] at heq
    exact h heq.1

/-- On a body whose read fails with an error other than `io.EOF`, the loop of
`refreshCache` does not reach its `break`, however many iterations it runs. -/
theorem scanLoop_broken (fuel : Nat) (inp : List Char) (acc : List vanity) :
    scanLoop true fuel inp acc = none := by
  induction fuel generalizing inp acc with
  | zero => rfl
  | succ n ih =>
    unfold scanLoop
    cases hF : Fscanf true inp with
    | mk r rest =>
      cases r with
      | ok v => exact ih rest _
      | error e =>
        cases e with
        | EOF => exact absurd hF (Fscanf_broken_ne_EOF inp rest)
        | readFailure => exact ih rest _
        | unexpectedNewline => exact ih rest _
        | newlineMismatch => exact ih rest _
        | expectedSpace => exact ih rest _

/-! ## Bodies that end with `io.EOF`: every iteration that goes on consumes a rune -/

theorem Scan.leaves_mono {α : Type} {n m : Nat} (r : Scan α) (h : r.leaves n)
    (hnm : n ≤ m) : r.leaves m := by
  cases r with
  | ok v rest held => exact Nat.le_trans h hnm
  | fail e rest => exact Nat.le_trans h hnm

theorem Scan.leaves_bind {α β : Type} (n : Nat) (r : Scan α) (f : α → List Char → Scan β)
    (hr : r.leaves n) (hf : ∀ v i, i.length ≤ n → (f v i).leaves n) :
    (r.bind f).leaves n := by
  cases r with
  | ok v rest held => exact hf v rest hr
  | fail e rest => exact hr

theorem SkipSpace_leaves (b : Bool) (inp : List Char) :
    (SkipSpace b inp).leaves inp.length := by
  induction inp with
  | nil => cases b <;> simp [SkipSpace, atEnd, Scan.leaves]
  | cons c x ih =>
    unfold SkipSpace
    by_cases h1 : c = '\n'
    · simp [h1, Scan.leaves]
    · by_cases h2 : isSpace c = true
      · simpa [h1, h2] using Scan.leaves_mono _ ih (Nat.le_succ _)
      · simp [h1, h2, Scan.leaves]

theorem notEOF_leaves (b : Bool) (inp : List Char) : (notEOF b inp).leaves inp.length := by
  cases inp with
  | nil => cases b <;> simp [notEOF, atEnd, Scan.leaves]
  | cons c x => simp [notEOF, Scan.leaves]

theorem tokenLoop_leaves (b : Bool) (inp : List Char) :
    (tokenLoop b inp).leaves inp.length := by
  induction inp with
  | nil => cases b <;> simp [tokenLoop, atEnd, Scan.leaves]
  | cons c x ih =>
    unfold tokenLoop
    by_cases h : isSpace c = true
    · simp [h, Scan.leaves]
    · simp only [h]
      cases ht : tokenLoop b x with
      | ok tok rest held =>
        rw [ht] at ih
        exact Nat.le_succ_of_le ih
      | fail e rest =>
        rw [ht] at ih
        exact Nat.le_succ_of_le ih

theorem advanceRun_leaves (b : Bool) (inp : List Char) :
    (advanceRun b inp).leaves inp.length := by
  induction inp with
  | nil => cases b <;> simp [advanceRun, atEnd, Scan.leaves]
  | cons c x ih =>
    unfold advanceRun
    by_cases h : (isSpace c && c != '\n') = true
    · simpa [h] using Scan.leaves_mono _ ih (Nat.le_succ _)
    · simp [h, Scan.leaves]

theorem advance_leaves (b : Bool) (inp : List Char) : (advance b inp).leaves inp.length := by
  cases inp with
  | nil => cases b <;> simp [advance, atEnd, Scan.leaves]
  | cons c x =>
    unfold advance
    by_cases h1 : isSpace c = true
    · by_cases h2 : c = '\n'
      · subst h2
        simp [isSpace_newline, Scan.leaves]
      · simpa [h1, h2] using Scan.leaves_mono _ (advanceRun_leaves b x) (Nat.le_succ _)
    · simp [h1, Scan.leaves]

theorem convertString_leaves (b : Bool) (inp : List Char) :
    (convertString b inp).leaves inp.length := by
  unfold convertString token
  apply Scan.leaves_bind _ _ _ (SkipSpace_leaves _ _)
  intro _ i1 h1
  apply Scan.leaves_bind _ _ _ (Scan.leaves_mono _ (notEOF_leaves _ _) h1)
  intro _ i2 h2
  apply Scan.leaves_bind _ _ _ (Scan.leaves_mono _ (SkipSpace_leaves _ _) h2)
  intro _ i3 h3
  exact Scan.leaves_mono _ (tokenLoop_leaves _ _) h3

/-- What follows the first verb in `doScanf` reads forward only. -/
theorem doScanf_rest_leaves (b : Bool) (pkg : GoString) (i2 : List Char) :
    ((advance b i2).bind fun _ i3 =>
      (SkipSpace b i3).bind fun _ i4 =>
      (convertString b i4).bind fun vcs i5 =>
      (advance b i5).bind fun _ i6 =>
      (SkipSpace b i6).bind fun _ i7 =>
      match convertString b i7 with
      | .ok url rest held => Scan.ok (⟨pkg, vcs, url⟩ : vanity) rest held
      | .fail e rest => .fail e rest).leaves i2.length := by
  apply Scan.leaves_bind _ _ _ (advance_leaves _ _)
  intro _ i3 h3
  apply Scan.leaves_bind _ _ _ (Scan.leaves_mono _ (SkipSpace_leaves _ _) h3)
  intro _ i4 h4
  apply Scan.leaves_bind _ _ _ (Scan.leaves_mono _ (convertString_leaves _ _) h4)
  intro vcs i5 h5
  apply Scan.leaves_bind _ _ _ (Scan.leaves_mono _ (advance_leaves _ _) h5)
  intro _ i6 h6
  apply Scan.leaves_bind _ _ _ (Scan.leaves_mono _ (SkipSpace_leaves _ _) h6)
  intro _ i7 h7
  have h := Scan.leaves_mono _ (convertString_leaves b i7) h7
  cases hc : convertString b i7 with
  | ok url rest held =>
    rw [hc] at h
    exact h
  | fail e rest =>
    rw [hc] at h
    exact h

/-- When `SkipSpace` panics, it has consumed the newline it met. -/
theorem SkipSpace_fail_lt (inp rest : List Char) (e : scanError)
    (h : SkipSpace false inp = .fail e rest) : rest.length < inp.length := by
  induction inp with
  | nil => simp [SkipSpace, atEnd] at h
  | cons c x ih =>
    unfold SkipSpace at h
    by_cases h1 : c = '\n'
    · simp only [h1, if_true, Scan.fail.injEq] at h
      rw [← h.2]
      exact Nat.lt_succ_self _
    · by_cases h2 : isSpace c = true
      · simp only [h1, h2, if_false, Bool.not_true, Bool.false_eq_true] at h
        exact Nat.lt_succ_of_lt (ih h)
      · simp [h1, h2] at h

/-- When `SkipSpace` returns, it stands at the end of the input or before a rune that
is no space, and it has only read forward. -/
theorem SkipSpace_ok (inp rest : List Char) (held : Bool)
    (h : SkipSpace false inp = .ok () rest held) :
    rest.length ≤ inp.length ∧
      (rest = [] ∨ ∃ c x, rest = c :: x ∧ isSpace c = false) := by
  induction inp with
  | nil =>
    simp only [SkipSpace, atEnd, Bool.false_eq_true, if_false, Scan.ok.injEq] at h
    rw [← h.2.1]
    exact ⟨Nat.le_refl _, Or.inl rfl⟩
  | cons c x ih =>
    unfold SkipSpace at h
    by_cases h1 : c = '\n'
    · simp [h1] at h
    · by_cases h2 : isSpace c = true
      · simp only [h1, h2, if_false, Bool.not_true, Bool.false_eq_true] at h
        obtain ⟨hl, hr⟩ := ih h
        exact ⟨Nat.le_succ_of_le hl, hr⟩
      · simp only [h1, h2, if_false, Bool.not_false, if_true, Scan.ok.injEq, true_and] at h
        rw [← h.1]
        exact ⟨Nat.le_refl _, Or.inr ⟨c, x, rfl, by simpa using h2⟩⟩

/-- On a body that ends with `io.EOF`, the loop of `ss.token` does not panic. -/
theorem tokenLoop_ok (inp : List Char) :
    ∃ tok rest held, tokenLoop false inp = .ok tok rest held ∧ rest.length ≤ inp.length := by
  induction inp with
  | nil => exact ⟨[], [], false, by simp [tokenLoop, atEnd], Nat.le_refl _⟩
  | cons c x ih =>
    obtain ⟨tok, rest, held, ht, hl⟩ := ih
    by_cases h : isSpace c = true
    · exact ⟨[], c :: x, true, by simp [tokenLoop, h], Nat.le_refl _⟩
    · exact ⟨c :: tok, rest, held, by simp [tokenLoop, h, ht], Nat.le_succ_of_le hl⟩

/-- A call of `doScanf` on a body that ends with `io.EOF` either panics with `io.EOF`
or leaves fewer runes than it found. -/
theorem doScanf_progress (inp : List Char) :
    match doScanf false inp with
    | .ok _ rest _ => rest.length < inp.length
    | .fail e rest => e = scanError.EOF ∨ rest.length < inp.length := by
  unfold doScanf
  cases hs : SkipSpace false inp with
  | fail e rest =>
    simp only [Scan.bind]
    exact Or.inr (SkipSpace_fail_lt inp rest e hs)
  | ok u i1 held =>
    obtain ⟨hl, hi1⟩ := SkipSpace_ok inp i1 held hs
    rw [Scan.bind_ok]
    rcases hi1 with hnil | ⟨c, x, hcx, hc⟩
    · subst hnil
      rw [convertString_nil]
      exact Or.inl rfl
    · subst hcx
      obtain ⟨tok, rest, held1, ht, hlt⟩ := tokenLoop_ok x
      have hconv : convertString false (c :: x) = .ok (c :: tok) rest held1 := by
        simp [convertString, token, Scan.bind, SkipSpace_nonspace, notEOF, hc, tokenLoop, ht]
      rw [hconv, Scan.bind_ok]
      have hk := doScanf_rest_leaves false (c :: tok) rest
      have hlen : rest.length < inp.length := by
        simp only [List.length_cons] at hl
        omega
      have key : ∀ k : Scan vanity, k.leaves rest.length →
          match k with
          | .ok _ r _ => r.length < inp.length
          | .fail e r => e = scanError.EOF ∨ r.length < inp.length := by
        intro k hk
        cases k with
        | ok v r h => exact Nat.lt_of_le_of_lt hk hlen
        | fail e r => exact Or.inr (Nat.lt_of_le_of_lt hk hlen)
      exact key _ hk

/-- A call of `Fscanf` on a body that ends with `io.EOF` either returns `io.EOF` or
consumes at least one rune of the body. -/
theorem Fscanf_progress (inp rest : List Char) (r : Except scanError vanity)
    (h : Fscanf false inp = (r, rest)) :
    r = .error .EOF ∨ rest.length < inp.length := by
  have hp := doScanf_progress inp
  unfold Fscanf at h
  cases hd : doScanf false inp with
  | ok v r1 held =>
    rw [hd] at hp h
    simp only [Prod.mk.injEq] at h
    right
    rw [← h.2]
    cases held with
    | true => exact Nat.lt_of_le_of_lt (by simp) hp
    | false => exact hp
  | fail e r1 =>
    rw [hd] at hp h
    simp only [Prod.mk.injEq] at h
    rcases hp with he | hlt
    · left
      rw [← h.1, he]
    · right
      rw [← h.2]
      exact hlt

/-- On a body that ends with `io.EOF` the loop of `refreshCache` ends within one
iteration more than the body has runes. -/
theorem scanLoop_terminates (fuel : Nat) (inp : List Char) (acc : List vanity)
    (hf : inp.length < fuel) : ∃ L, scanLoop false fuel inp acc = some L := by
  induction fuel generalizing inp acc with
  | zero => exact absurd hf (Nat.not_lt_zero _)
  | succ n ih =>
    unfold scanLoop
    cases hF : Fscanf false inp with
    | mk r rest =>
      rcases Fscanf_progress inp rest r hF with he | hlt
      · subst he
        exact ⟨acc, rfl⟩
      · have hn : rest.length < n := by omega
        cases r with
        | ok v => exact ih rest _ hn
        | error e =>
          cases e with
          | EOF => exact ⟨acc, rfl⟩
          | readFailure => exact ih rest _ hn
          | unexpectedNewline => exact ih rest _ hn
          | newlineMismatch => exact ih rest _ hn
          | expectedSpace => exact ih rest _ hn

/-- More iterations do not change the result of a loop that has ended. -/
theorem scanLoop_mono (b : Bool) (fuel : Nat) (inp : List Char) (acc L : List vanity)
    (h : scanLoop b fuel inp acc = some L) : scanLoop b (fuel + 1) inp acc = some L := by
  induction fuel generalizing inp acc with
  | zero => simp [scanLoop] at h
  | succ n ih =>
    unfold scanLoop at h ⊢
    cases hF : Fscanf b inp with
    | mk r rest =>
      rw [hF] at h
      cases r with
      | ok v => exact ih rest _ h
      | error e =>
        cases e with
        | EOF => exact h
        | readFailure => exact ih rest _ h
        | unexpectedNewline => exact ih rest _ h
        | newlineMismatch => exact ih rest _ h
        | expectedSpace => exact ih rest _ h

theorem scanLoop_mono_add (b : Bool) (fuel k : Nat) (inp : List Char) (acc L : List vanity)
    (h : scanLoop b fuel inp acc = some L) : scanLoop b (fuel + k) inp acc = some L := by
  induction k with
  | zero => exact h
  | succ k ih => exact scanLoop_mono b (fuel + k) inp acc L ih

/-- On every body that ends with `io.EOF` the scan loop ends and yields one list of
records, the same for every number of iterations above the length of the body. -/
theorem scanLoop_eof_total (body : List Char) (acc : List vanity) :
    ∃ L, Parses body acc L := by
  obtain ⟨L, hL⟩ := scanLoop_terminates (body.length + 1) body acc (Nat.lt_succ_self _)
  refine ⟨L, ?_⟩
  intro fuel hf
  obtain ⟨k, hk⟩ := Nat.exists_eq_add_of_le (Nat.succ_le_of_lt hf)
  rw [hk]
  exact scanLoop_mono_add false _ k body acc L hL

/-! ## Claims on the fetch step, the merge, the handler and the timer decision -/

/-- C2: when the fetch fails, `refreshCache` returns count 0 and the error of the fetch,
and leaves the map as it was, so that `handle` replies to every path as before. -/
theorem refreshCache_fetch_failure (fuel : Nat) (err : error) (vmap : VMap) :
    ∃ r, refreshCache fuel (.error err) vmap = some r ∧ r.n = 0 ∧ r.err = some err ∧
      r.err ≠ none ∧ r.vmap = vmap ∧
      (∀ k, r.vmap k = vmap k) ∧ ∀ path, handle r.vmap path = handle vmap path :=
  ⟨⟨0, some err, vmap⟩, rfl, rfl, rfl, by simp, rfl, fun _ => rfl, fun _ => rfl⟩

/-- C4: when the scan loop of a successful `refreshCache` yields the batch `L`, the map
afterwards holds, for a name that no record of `L` has, what the prior map `M` held,
and for the name of a record of `L` the last record of `L` with that name; no key of
`M` is removed. -/
theorem refreshCache_merge_last_wins (fuel : Nat) (resp : Response) (M : VMap)
    (L : List vanity) (hL : scanLoop resp.Body.broken fuel resp.Body.data [] = some L) :
    ∃ r, refreshCache fuel (.ok resp) M = some r ∧ r.err = none ∧
      (∀ k, (∀ v ∈ L, v.Pkg ≠ k) → r.vmap k = M k) ∧
      (∀ pre v post, L = pre ++ v :: post → (∀ w ∈ post, w.Pkg ≠ v.Pkg) →
        r.vmap v.Pkg = some v) ∧
      (∀ k, (M k).isSome → (r.vmap k).isSome) := by
  refine ⟨⟨L.length, none, mergeList M L⟩, ?_, rfl, ?_, ?_, ?_⟩
  · simp [refreshCache, hL]
  · intro k hk
    exact mergeList_absent L M k hk
  · intro pre v post e hpost
    show mergeList M L v.Pkg = some v
    rw [e]
    exact mergeList_last M pre post v hpost
  · intro k hk
    exact mergeList_keeps L M k hk

/-- Witness of C4: the batch `foo`, `bar`, `foo` read from a feed of three lines. -/
theorem refreshCache_merge_last_wins_witness :
    ∃ r, refreshCache 4 (.ok ⟨200, ⟨"foo git a\nbar hg b\nfoo svn c\n".toList, false⟩⟩)
        emptyMap = some r ∧ r.err = none ∧
      (∀ k, (∀ v ∈ [(⟨"foo".toList, "git".toList, "a".toList⟩ : vanity),
          ⟨"bar".toList, "hg".toList, "b".toList⟩,
          ⟨"foo".toList, "svn".toList, "c".toList⟩], v.Pkg ≠ k) → r.vmap k = emptyMap k) ∧
      (∀ pre v post, [(⟨"foo".toList, "git".toList, "a".toList⟩ : vanity),
          ⟨"bar".toList, "hg".toList, "b".toList⟩,
          ⟨"foo".toList, "svn".toList, "c".toList⟩] = pre ++ v :: post →
        (∀ w ∈ post, w.Pkg ≠ v.Pkg) → r.vmap v.Pkg = some v) ∧
      (∀ k, (emptyMap k).isSome → (r.vmap k).isSome) :=
  refreshCache_merge_last_wins 4
    ⟨200, ⟨"foo git a\nbar hg b\nfoo svn c\n".toList, false⟩⟩ emptyMap _ (by decide)

/-- C5: `handle` replies not-found (status 404) exactly when the path without its
leading `/` is no key of the map; otherwise it executes the template on the record
stored under that key; the map is left as it was. -/
theorem handle_lookup (vmap : VMap) (path : GoString) :
    ((handle vmap path).1 = .notFound ↔ vmap (TrimPrefix path ['/']) = none) ∧
    ((handle vmap path).1.status = 404 ↔ vmap (TrimPrefix path ['/']) = none) ∧
    (∀ info, vmap (TrimPrefix path ['/']) = some info →
      (handle vmap path).1 = .page info ∧ (handle vmap path).1.status = 200) ∧
    (∀ k, TrimPrefix ('/' :: k) ['/'] = k) ∧
    (handle vmap path).2 = vmap := by
  refine ⟨?_, ?_, ?_, TrimPrefix_slash, ?_⟩
  · unfold handle
    cases h : vmap (TrimPrefix path ['/']) <;> simp
  · unfold handle
    cases h : vmap (TrimPrefix path ['/']) <;> simp [Reply.status]
  · intro info h
    simp [handle, h, Reply.status]
  · unfold handle
    cases h : vmap (TrimPrefix path ['/']) <;> rfl

/-- Witness of C5: the request `GET /foo` on a map that holds `foo`. -/
theorem handle_lookup_witness :
    ((handle fooMap "/foo".toList).1 = .notFound
      ↔ fooMap (TrimPrefix "/foo".toList ['/']) = none) ∧
    ((handle fooMap "/foo".toList).1.status = 404
      ↔ fooMap (TrimPrefix "/foo".toList ['/']) = none) ∧
    (∀ info, fooMap (TrimPrefix "/foo".toList ['/']) = some info →
      (handle fooMap "/foo".toList).1 = .page info ∧
      (handle fooMap "/foo".toList).1.status = 200) ∧
    (∀ k, TrimPrefix ('/' :: k) ['/'] = k) ∧
    (handle fooMap "/foo".toList).2 = fooMap :=
  handle_lookup fooMap "/foo".toList

/-- C6, as the claim states it, fails: for a response with status 404 whose body is one
line of the feed, `refreshCache` returns no error and count 1, and the record of the body
is in the map, which did not hold it before. -/
theorem refreshCache_status_404_parsed :
    ∃ r, refreshCache 2 (.ok ⟨404, ⟨"foo git https://example.com/foo\n".toList, false⟩⟩)
        emptyMap = some r ∧ r.err = none ∧ r.n = 1 ∧
      r.vmap "foo".toList
        = some ⟨"foo".toList, "git".toList, "https://example.com/foo".toList⟩ ∧
      emptyMap "foo".toList = none :=
  ⟨⟨1, none, mergeList emptyMap
      [⟨"foo".toList, "git".toList, "https://example.com/foo".toList⟩]⟩,
    by rfl, rfl, rfl, by decide, rfl⟩

/-- C6, amended: `refreshCache` does not look at the status of the response. Whatever the
status, it behaves as for the same body with status 200; when it returns, the error is
nil, the count is the length of the batch that the scan loop read from that body, and the
map is the prior map with that batch merged. -/
theorem refreshCache_ignores_status (fuel : Nat) (resp : Response) (vmap : VMap) :
    refreshCache fuel (.ok resp) vmap
        = refreshCache fuel (.ok ⟨200, resp.Body⟩) vmap ∧
    ∀ r, refreshCache fuel (.ok resp) vmap = some r →
      r.err = none ∧
      ∃ L, scanLoop resp.Body.broken fuel resp.Body.data [] = some L ∧
        r.n = L.length ∧ r.vmap = mergeList vmap L := by
  refine ⟨rfl, ?_⟩
  intro r hr
  unfold refreshCache at hr
  cases hs : scanLoop resp.Body.broken fuel resp.Body.data [] with
  | none => simp [hs] at hr
  | some L =>
    simp only [hs, Option.some.injEq] at hr
    subst hr
    exact ⟨rfl, L, rfl, rfl, rfl⟩

/-- Witness of C6: a response with status 500. -/
theorem refreshCache_ignores_status_witness :
    refreshCache 2 (.ok fooResponse500) emptyMap
        = refreshCache 2 (.ok ⟨200, fooResponse500.Body⟩) emptyMap ∧
    ∀ r, refreshCache 2 (.ok fooResponse500) emptyMap = some r →
      r.err = none ∧
      ∃ L, scanLoop fooResponse500.Body.broken 2 fooResponse500.Body.data [] = some L ∧
        r.n = L.length ∧ r.vmap = mergeList emptyMap L :=
  refreshCache_ignores_status 2 fooResponse500 emptyMap

/-- C9, as the claim states it, fails: for the negative interval `-1`, `main` starts the
timer loop and logs no warning about the interval. -/
theorem main_negative_interval_starts_loop :
    Effect.goRefreshCacheLoop "u".toList ∈ main (-1) "/refresh".toList "u".toList ∧
    ¬ (0 : Int) < -1 ∧
    Effect.logPrintf
        "warning: refesh durations set to zero. so cache won't refresh automatically"
      ∉ main (-1) "/refresh".toList "u".toList := by
  decide

/-- C9, amended: `main` starts `refreshCacheLoop` exactly when the interval is not zero;
the warning about the interval is logged exactly when it is zero. -/
theorem main_starts_loop_iff (d : Int) (refreshPath dataURL : GoString) :
    (Effect.goRefreshCacheLoop dataURL ∈ main d refreshPath dataURL ↔ d ≠ 0) ∧
    (Effect.logPrintf
        "warning: refesh durations set to zero. so cache won't refresh automatically"
      ∈ main d refreshPath dataURL ↔ d = 0) := by
  by_cases hd : d = 0 <;> by_cases hp : refreshPath = [] <;> simp [main, hd, hp]

/-! ## Claims on the scan loop -/

/-- C1, as the claim states it, fails: on the feed of one triple whose three tokens are
separated by newlines, `refreshCache` returns count 0, not 1, and the name of the triple
is no key of the map afterwards, whatever the number of iterations. -/
theorem refreshCache_tokens_on_three_lines :
    (∃ r, refreshCache 4 (.ok ⟨200, ⟨threeLineFeed, false⟩⟩) emptyMap = some r ∧
      r.n = 0 ∧ r.err = none ∧ r.vmap "foo".toList = none) ∧
    ∀ fuel r, refreshCache fuel (.ok ⟨200, ⟨threeLineFeed, false⟩⟩) emptyMap = some r →
      r.n = 0 ∧ r.vmap "foo".toList = none := by
  refine ⟨⟨⟨0, none, mergeList emptyMap []⟩, by rfl, rfl, rfl, rfl⟩, ?_⟩
  intro fuel r h
  have hs : scanLoop false fuel threeLineFeed [] = none ∨
      scanLoop false fuel threeLineFeed [] = some [] := by
    match fuel with
    | 0 => exact Or.inl rfl
    | 1 => exact Or.inl rfl
    | 2 => exact Or.inl rfl
    | 3 => exact Or.inl rfl
    | n + 4 => exact Or.inr rfl
  unfold refreshCache at h
  rcases hs with hs | hs
  · simp [hs] at h
  · simp only [hs, Option.some.injEq] at h
    subst h
    exact ⟨rfl, rfl⟩

/-- C1, amended: for every prior map and every feed of `N` triples in which the tokens of
each triple are separated by spaces without a newline and each triple is followed by
white space such as its newline, `refreshCache` on a response with that body returns
count `N` and no error, and the keys of the map afterwards are the prior keys together
with the names of the `N` triples. -/
theorem refreshCache_well_formed_feed (M : VMap) (ts : List Triple) (status fuel : Nat)
    (hwf : FeedWF ts) (hfuel : (renderFeed ts).length < fuel) :
    ∃ r, refreshCache fuel (.ok ⟨status, ⟨renderFeed ts, false⟩⟩) M = some r ∧
      r.n = ts.length ∧ r.err = none ∧
      ∀ k, (r.vmap k).isSome ↔ ((M k).isSome ∨ ∃ t ∈ ts, t.name = k) := by
  have hp : scanLoop false fuel (renderFeed ts) [] = some (ts.map Triple.record) := by
    simpa using Parses.feed ts hwf [] fuel hfuel
  refine ⟨⟨(ts.map Triple.record).length, none, mergeList M (ts.map Triple.record)⟩,
    ?_, by simp, rfl, ?_⟩
  · simp [refreshCache, hp]
  · intro k
    show (mergeList M (ts.map Triple.record) k).isSome ↔ _
    rw [mergeList_keys]
    simp [Triple.record]

/-- Witness of C1: the two-line feed of the specification returns 2. -/
theorem refreshCache_well_formed_feed_witness :
    ∃ r, refreshCache 100 (.ok ⟨200, ⟨renderFeed
          [⟨"foo".toList, [' '], "git".toList, [' '], "https://example.com/foo".toList, ['\n']⟩,
           ⟨"bar".toList, [' '], "hg".toList, [' '], "https://example.com/bar".toList, ['\n']⟩],
          false⟩⟩) emptyMap = some r ∧
      r.n = [(⟨"foo".toList, [' '], "git".toList, [' '], "https://example.com/foo".toList,
                ['\n']⟩ : Triple),
             ⟨"bar".toList, [' '], "hg".toList, [' '], "https://example.com/bar".toList,
                ['\n']⟩].length ∧
      r.err = none ∧
      ∀ k, (r.vmap k).isSome ↔ ((emptyMap k).isSome ∨
        ∃ t ∈ [(⟨"foo".toList, [' '], "git".toList, [' '], "https://example.com/foo".toList,
                  ['\n']⟩ : Triple),
               ⟨"bar".toList, [' '], "hg".toList, [' '], "https://example.com/bar".toList,
                  ['\n']⟩], t.name = k) :=
  refreshCache_well_formed_feed emptyMap _ 200 100 (by decide) (by decide)

/-- C3, as the claim states it, fails: in the feed of the triple `x y z` on two lines, the
malformed line `a b` and the line `c d e`, the triple before the malformed entry is not
merged: `refreshCache` returns count 1, not 2, and `x` is no key of the map afterwards. -/
theorem refreshCache_split_triple_not_merged :
    (∃ r, refreshCache 5 (.ok ⟨200, ⟨splitTripleFeed, false⟩⟩) emptyMap = some r ∧
      r.n = 1 ∧ r.err = none ∧ r.vmap "x".toList = none ∧
      r.vmap "c".toList = some ⟨"c".toList, "d".toList, "e".toList⟩) ∧
    ∀ fuel r, refreshCache fuel (.ok ⟨200, ⟨splitTripleFeed, false⟩⟩) emptyMap = some r →
      r.n = 1 ∧ r.vmap "x".toList = none := by
  refine ⟨⟨⟨1, none, mergeList emptyMap [⟨"c".toList, "d".toList, "e".toList⟩]⟩,
    by rfl, rfl, rfl, by decide, by decide⟩, ?_⟩
  intro fuel r h
  have hs : scanLoop false fuel splitTripleFeed [] = none ∨
      scanLoop false fuel splitTripleFeed []
        = some [⟨"c".toList, "d".toList, "e".toList⟩] := by
    match fuel with
    | 0 => exact Or.inl rfl
    | 1 => exact Or.inl rfl
    | 2 => exact Or.inl rfl
    | 3 => exact Or.inl rfl
    | 4 => exact Or.inl rfl
    | n + 5 => exact Or.inr rfl
  unfold refreshCache at h
  rcases hs with hs | hs
  · simp [hs] at h
  · simp only [hs, Option.some.injEq] at h
    subst h
    exact ⟨rfl, by decide⟩

/-- C3, amended: in a feed laid out in lines (the tokens of each triple separated by
spaces without a newline, each triple before the malformed entry followed by white
space) whose entries are well-formed triples except for one malformed entry (a line with
one or two tokens, or one or two tokens before the end of the stream), `refreshCache`
does not fail. The batch of the scan loop is the records of the triples before and after
the malformed entry, in order, and nothing else; the count is the number of those
triples; the keys of the map afterwards are the prior keys and the names of those
triples; each such name maps to the last record of the batch with that name; and every
other name, the tokens of the malformed entry included, holds what the prior map held. -/
theorem refreshCache_skips_malformed (M : VMap) (before after : List Triple) (m : Short)
    (status fuel : Nat)
    (hbefore : ∀ t ∈ before, t.wf ∧ t.sep ≠ []) (hm : m.wf) (hafter : FeedWF after)
    (hend : m.newline = false → after = [])
    (hfuel : (renderFeed before ++ (m.render ++ renderFeed after)).length < fuel) :
    scanLoop false fuel (renderFeed before ++ (m.render ++ renderFeed after)) []
      = some ((before ++ after).map Triple.record) ∧
    ∃ r, refreshCache fuel
          (.ok ⟨status, ⟨renderFeed before ++ (m.render ++ renderFeed after), false⟩⟩) M
        = some r ∧
      r.err = none ∧ r.n = before.length + after.length ∧
      r.vmap = mergeList M ((before ++ after).map Triple.record) ∧
      (∀ k, (r.vmap k).isSome ↔ ((M k).isSome ∨ ∃ t ∈ before ++ after, t.name = k)) ∧
      (∀ t ∈ before ++ after, (r.vmap t.name).isSome) ∧
      (∀ pre v post, (before ++ after).map Triple.record = pre ++ v :: post →
        (∀ w ∈ post, w.Pkg ≠ v.Pkg) → r.vmap v.Pkg = some v) ∧
      (∀ k, (∀ t ∈ before ++ after, t.name ≠ k) → r.vmap k = M k) := by
  have hp : Parses (renderFeed before ++ (m.render ++ renderFeed after)) []
      ((before ++ after).map Triple.record) := by
    apply Parses.feed_then before hbefore
    cases hnl : m.newline with
    | true =>
      apply Parses.short_line m _ _ _ hm hnl
      simpa using Parses.feed after hafter ([] ++ before.map Triple.record)
    | false =>
      have ha := hend hnl
      subst ha
      simpa [renderFeed] using Parses.short_end m ([] ++ before.map Triple.record) hm hnl
  have hs := hp fuel hfuel
  have hkeys : ∀ k, (mergeList M ((before ++ after).map Triple.record) k).isSome ↔
      ((M k).isSome ∨ ∃ t ∈ before ++ after, t.name = k) := by
    intro k
    rw [mergeList_keys]
    constructor
    · rintro (h | ⟨v, hv, hk⟩)
      · exact Or.inl h
      · obtain ⟨t, ht, rfl⟩ := List.mem_map.mp hv
        exact Or.inr ⟨t, ht, hk⟩
    · rintro (h | ⟨t, ht, hk⟩)
      · exact Or.inl h
      · exact Or.inr ⟨t.record, List.mem_map.mpr ⟨t, ht, rfl⟩, hk⟩
  refine ⟨hs, ⟨((before ++ after).map Triple.record).length, none,
    mergeList M ((before ++ after).map Triple.record)⟩, ?_, rfl, by simp, rfl, hkeys,
    ?_, ?_, ?_⟩
  · simp [refreshCache, hs]
  · intro t ht
    exact (hkeys t.name).mpr (Or.inr ⟨t, ht, rfl⟩)
  · intro pre v post e hpost
    show mergeList M ((before ++ after).map Triple.record) v.Pkg = some v
    rw [e]
    exact mergeList_last M pre post v hpost
  · intro k hk
    apply mergeList_absent
    intro v hv
    obtain ⟨t, ht, rfl⟩ := List.mem_map.mp hv
    exact hk t ht

/-- Witness of C3: a line with two tokens between two well-formed lines. -/
theorem refreshCache_skips_malformed_witness :
    scanLoop false 100 (renderFeed [lineXYZ] ++ (lineAB.render ++ renderFeed [lineCDE])) []
      = some (([lineXYZ] ++ [lineCDE]).map Triple.record) ∧
    ∃ r, refreshCache 100
          (.ok ⟨200, ⟨renderFeed [lineXYZ] ++ (lineAB.render ++ renderFeed [lineCDE]),
            false⟩⟩) emptyMap
        = some r ∧
      r.err = none ∧ r.n = [lineXYZ].length + [lineCDE].length ∧
      r.vmap = mergeList emptyMap (([lineXYZ] ++ [lineCDE]).map Triple.record) ∧
      (∀ k, (r.vmap k).isSome ↔
        ((emptyMap k).isSome ∨ ∃ t ∈ [lineXYZ] ++ [lineCDE], t.name = k)) ∧
      (∀ t ∈ [lineXYZ] ++ [lineCDE], (r.vmap t.name).isSome) ∧
      (∀ pre v post, ([lineXYZ] ++ [lineCDE]).map Triple.record = pre ++ v :: post →
        (∀ w ∈ post, w.Pkg ≠ v.Pkg) → r.vmap v.Pkg = some v) ∧
      (∀ k, (∀ t ∈ [lineXYZ] ++ [lineCDE], t.name ≠ k) → r.vmap k = emptyMap k) :=
  refreshCache_skips_malformed emptyMap [lineXYZ] [lineCDE] lineAB 200 100
    (by decide) (by decide) (by decide) (by decide) (by decide)

/-- C7, as the claim states it, fails: with a newline between the first two tokens of a
triple the scan loop yields no record at all, whatever the number of iterations. -/
theorem scanLoop_newline_inside_triple :
    scanLoop false 3 "foo\ngit https://example.com/foo\n".toList [] = some [] ∧
    ∀ fuel, scanLoop false fuel "foo\ngit https://example.com/foo\n".toList []
      ≠ some [⟨"foo".toList, "git".toList, "https://example.com/foo".toList⟩] := by
  refine ⟨by decide, ?_⟩
  intro fuel
  match fuel with
  | 0 => decide
  | 1 => decide
  | 2 => decide
  | n + 3 =>
    have h : scanLoop false (n + 3) "foo\ngit https://example.com/foo\n".toList []
        = some [] := rfl
    rw [h]
    decide

/-- C7, amended: when the tokens of each triple are separated by non-empty runs of
spaces without a newline, and the triples by non-empty runs of white space (newlines and
blank lines included), with white space allowed before the first triple and after the
last, the scan loop yields exactly the records of the triples, in stream order. -/
theorem scanLoop_feed_records (lead : List Char) (ts : List Triple) (fuel : Nat)
    (hlead : isWhite lead) (hwf : FeedWF ts)
    (hfuel : (lead ++ renderFeed ts).length < fuel) :
    scanLoop false fuel (lead ++ renderFeed ts) [] = some (ts.map Triple.record) := by
  have hp := Parses.white lead (renderFeed ts) [] _ hlead (Parses.feed ts hwf [])
  simpa using hp fuel hfuel

/-- Witness of C7: tabs and several spaces inside the lines, blank lines between them. -/
theorem scanLoop_feed_records_witness :
    scanLoop false 100 ("\n  ".toList ++ renderFeed
        [⟨"foo".toList, "\t ".toList, "git".toList, "   ".toList, "u".toList, "\n\n\n".toList⟩,
         ⟨"bar".toList, " ".toList, "hg".toList, "\t".toList, "v".toList, " \n".toList⟩]) []
      = some ([(⟨"foo".toList, "\t ".toList, "git".toList, "   ".toList, "u".toList,
                  "\n\n\n".toList⟩ : Triple),
               ⟨"bar".toList, " ".toList, "hg".toList, "\t".toList, "v".toList,
                  " \n".toList⟩].map Triple.record) :=
  scanLoop_feed_records _ _ 100 (by decide) (by decide) (by decide)

/-- C10 fails on the code: when the body delivers one line of the feed and every further
read fails with an error other than `io.EOF`, the scan loop of `refreshCache` never ends,
so `refreshCache` returns nothing, however many iterations it is given. -/
theorem refreshCache_read_error_never_returns (fuel : Nat) (M : VMap) :
    scanLoop true fuel "foo git https://example.com/foo\n".toList [] = none ∧
    refreshCache fuel
      (.ok ⟨200, ⟨"foo git https://example.com/foo\n".toList, true⟩⟩) M = none := by
  have h := scanLoop_broken fuel "foo git https://example.com/foo\n".toList []
  refine ⟨h, ?_⟩
  unfold refreshCache
  simp only [h]

end Yavs
